import Mathlib

/-!
Shallow embedding of the TRIEST streaming triangle estimators of this
repository, covering `src/HW3/Triest.py` (classes `TriestBase` and
`TriestImpr`) and `src/Asiignment3/Steammingtriangle.py` (classes `Triest`
and `TriestImproved`).

Modelling conventions:
* A Python `frozenset` of vertex ids is a `Finset ℤ` (vertex ids are parsed
  with `int()`, so they range over the integers).  The sample `S` is a
  Python `set` of frozensets; it is modelled as a `List Edge` carrying
  Python set semantics explicitly: `S.add` inserts only when absent
  (`addEdge`), `S.remove` erases an occurrence, and `list(S)` is the list
  itself.  That `S` holds no duplicates is then a provable invariant rather
  than a representation artifact.
* `defaultdict(int)` is modelled as a total function `ℤ → ℤ` (resp. `ℤ → ℚ`)
  with default value `0`.  The BASE variant deletes a key when its value
  returns to `0`; this changes only key *presence*, never any value read
  (reads use default `0`), so the function model is value-faithful.
* Python floats are modelled as `ℚ`: every arithmetic expression involved
  is a ratio of integer products, and the claims under study concern the
  exact mathematical values of these expressions.
* The counter-update loops (`for c in shared_neighborhood: tau += d; ...`)
  perform only pairwise-commuting additions, so each loop is embedded as
  its exact aggregate effect: `tau` gains `d * |sharedNeighborhood|`, and
  the per-vertex map gains, at `x`, `d` for each bump of `x` — that is
  `d * |sharedNeighborhood|` when `x` is an endpoint of the edge and an
  extra `d` when `x` itself lies in the shared neighborhood.
* The two sources of randomness (`random.random() < M/t` and
  `random.choice(list(S))`) are supplied by an oracle: each processed line
  carries a boolean coin and a natural index `k`; `random.choice(list(S))`
  becomes `pickEdge S k`, the `k % |S|`-th element of the list.
* Exceptions that abort the run (`ValueError` from `int()`, `TypeError`
  from `reduce` over an empty sequence) are modelled as `Except.error ()`.
-/

/-- A vertex identifier (Python `int`). -/
abbrev Vertex := ℤ

/-- An edge as stored by the scripts: a `frozenset` of vertex ids. -/
abbrev Edge := Finset Vertex

/-- `{node for link in S if u in link for node in link if node != u}` —
the neighborhood of `u` inside the sampled edge list `S`
(`TriestBase._update_counters`, `Triest._update_counters`). -/
def nbhd (S : List Edge) (u : Vertex) : Finset Vertex :=
  S.foldr (fun link acc => (if u ∈ link then link.erase u else ∅) ∪ acc) ∅

/-- `N_u & N_v` — the shared neighborhood of the endpoints `u`, `v`
computed against `S` (`TriestBase._update_counters`). -/
def shared (S : List Edge) (u v : Vertex) : Finset Vertex :=
  nbhd S u ∩ nbhd S v

/-- The shared neighborhood expressed on the edge itself:
the intersection of `nbhd S x` over the vertices `x ∈ e`, rendered as the
members of the union that lie in every `nbhd S x`.  For a two-element
edge `{u, v}` this is exactly `N_u & N_v`, and for any nonempty `e` it is
the `reduce(lambda a, b: a & b, ...)` of `Steammingtriangle.py`. -/
def sharedE (S : List Edge) (e : Edge) : Finset Vertex :=
  (e.biUnion (nbhd S)).filter (fun x => ∀ v ∈ e, x ∈ nbhd S v)

/-- `S.add(edge)` with Python set semantics: a no-op when already present. -/
def addEdge (S : List Edge) (e : Edge) : List Edge :=
  if e ∈ S then S else S ++ [e]

/-- `random.choice(list(S))` with the random draw replaced by an oracle
index `k`; returns the junk value `∅` on an empty `S` (where the Python
call would raise `IndexError`). -/
def pickEdge (S : List Edge) (k : ℕ) : Edge :=
  S.getD (k % S.length) ∅

/-- State of `TriestBase` (src/HW3/Triest.py).  The `file` and `verbose`
fields are I/O configuration with no effect on estimator state and are
omitted.  `seen` models `seen_edges` (Python stores `None` when
`skip_duplicates` is false; the field is then never consulted). -/
structure BaseState where
  M : ℕ
  skipDup : Bool
  S : List Edge
  t : ℕ
  tau : ℤ
  tauV : Vertex → ℤ
  seen : Finset Edge
  skipped : ℕ

/-- `TriestBase.__init__`: plain field initialization; the constructor
performs no validation of `M` whatsoever. -/
def initBase (M : ℕ) (skipDup : Bool) : BaseState :=
  ⟨M, skipDup, [], 0, 0, fun _ => 0, ∅, 0⟩

/-- `TriestBase._update_counters(edge, increment)`:
`u, v = tuple(edge)` (raising for a non-2-element set — unreachable for
the edges this method is called on, modelled as a no-op), then
`for c in shared_neighborhood: tau += d; tauV[u] += d; tauV[v] += d;
tauV[c] += d`, aggregated (`d = 1` for `increment=True`, `d = -1` for
`increment=False`; the decrement branch's delete-on-zero bookkeeping only
removes keys whose value is `0` and is value-invisible).  For a
two-element edge, `(if x ∈ e .. )` is the indicator `[x = u] + [x = v]`. -/
def updCountersB (st : BaseState) (e : Edge) (d : ℤ) : BaseState :=
  if e.card = 2 then
    let sh := sharedE st.S e
    { st with
      tau := st.tau + d * sh.card
      tauV := fun x =>
        st.tauV x + d * ((if x ∈ e then 1 else 0) * sh.card
          + (if x ∈ sh then 1 else 0)) }
  else st

/-- `TriestBase._sample_edge`: admit unconditionally while `t ≤ M`;
otherwise, on a successful coin, pick a random member of `S`, remove it
from `S` first, and only then subtract its triangle contribution
(computed against `S` *after* the removal). -/
def sampleBase (st : BaseState) (coin : Bool) (k : ℕ) : BaseState × Bool :=
  if st.t ≤ st.M then (st, true)
  else if coin then
    let er := pickEdge st.S k
    (updCountersB { st with S := st.S.erase er } er (-1), true)
  else (st, false)

/-- The body of `TriestBase.run` for one accepted candidate edge `{a, b}`
(`a ≠ b` at every call site): duplicate check, `seen` update, `t`
increment, sampling decision, and — if admitted — insertion into `S`
*followed by* the `increment=True` counter update (computed against `S`
*after* the insertion). -/
def procBase (st : BaseState) (a b : Vertex) (coin : Bool) (k : ℕ) : BaseState :=
  let e : Edge := {a, b}
  if st.skipDup = true ∧ e ∈ st.seen then { st with skipped := st.skipped + 1 }
  else
    let st1 := if st.skipDup then { st with seen := insert e st.seen } else st
    let st2 := { st1 with t := st1.t + 1 }
    match sampleBase st2 coin k with
    | (st3, true) => updCountersB { st3 with S := addEdge st3.S e } e 1
    | (st3, false) => st3

/-- An input line of `src/HW3/Triest.py` after `strip()`:
`isComment` is true when the stripped line is empty or starts with `#`;
`toks` is the whitespace token list, each token being `some z` when
`int(token) = z` succeeds and `none` when `int()` would raise. -/
structure Line where
  isComment : Bool
  toks : List (Option ℤ)

/-- One loop iteration of `TriestBase.run` on one input line.  Mirrors, in
order: the comment/empty skip, `_get_edge` (which only parses the first
two tokens and returns `frozenset()` when there are fewer than two), the
`len(edge) != 2` skip (which also covers the vacuous `u == v` check: a
two-element frozenset always has distinct elements), and `procBase`.
`Except.error ()` is the uncaught `ValueError` raised by `int()` inside
`_get_edge`, which aborts the whole run. -/
def stepBase (st : BaseState) (l : Line) (coin : Bool) (k : ℕ) : Except Unit BaseState :=
  if l.isComment = true then .ok st
  else
    match l.toks with
    | [] => .ok st
    | [_] => .ok st
    | some a :: some b :: _ =>
        if a = b then .ok st else .ok (procBase st a b coin k)
    | _ => .error ()

/-- `TriestBase.run` over a whole stream of lines, each bundled with its
oracle draws. -/
def runBase : BaseState → List (Line × Bool × ℕ) → Except Unit BaseState
  | st, [] => .ok st
  | st, (l, c, k) :: rest =>
      match stepBase st l c k with
      | .error e => .error e
      | .ok st' => runBase st' rest

/-- `TriestBase.xi` (src/HW3/Triest.py, lines 25–30): `1.0` while
`t ≤ M`, otherwise `max(1.0, t(t-1)(t-2) / (M(M-1)(M-2)))`. -/
def xiBase (t M : ℕ) : ℚ :=
  if t ≤ M then 1
  else max 1 (((t : ℚ) * ((t : ℚ) - 1) * ((t : ℚ) - 2)) /
              ((M : ℚ) * ((M : ℚ) - 1) * ((M : ℚ) - 2)))

/-- `TriestImpr.xi` (src/HW3/Triest.py, lines 123–127) — the weight
factor `η(t)`: `1.0` while `t < 3`, otherwise
`max(1.0, (t-1)(t-2) / (M(M-1)))`. -/
def etaImpr (t M : ℕ) : ℚ :=
  if t < 3 then 1
  else max 1 ((((t : ℚ) - 1) * ((t : ℚ) - 2)) / ((M : ℚ) * ((M : ℚ) - 1)))

/-- `TriestImproved.eta` (src/Asiignment3/Steammingtriangle.py, lines
242–247): `max(1.0, (t-1)(t-2) / (M(M-1)))` with no `t < 3` guard. -/
def etaA3 (t M : ℕ) : ℚ :=
  max 1 ((((t : ℚ) - 1) * ((t : ℚ) - 2)) / ((M : ℚ) * ((M : ℚ) - 1)))

/-- State of `TriestImpr` (src/HW3/Triest.py).  It inherits the fields of
`TriestBase`, but `tau` and the per-vertex map accumulate float weights. -/
structure ImprState where
  M : ℕ
  skipDup : Bool
  S : List Edge
  t : ℕ
  tau : ℚ
  tauV : Vertex → ℚ
  seen : Finset Edge
  skipped : ℕ

/-- `TriestImpr` construction (inherited `TriestBase.__init__`): plain
field initialization, no validation of `M`. -/
def initImpr (M : ℕ) (skipDup : Bool) : ImprState :=
  ⟨M, skipDup, [], 0, 0, fun _ => 0, ∅, 0⟩

/-- `TriestImpr._update_counters(edge, increment=True)`: weight
`w = self.xi()` (the η factor at the current `t`), then
`for c in shared_neighborhood: tau += w; tauV[u] += w; tauV[v] += w;
tauV[c] += w`, aggregated.  (The `increment=False` branch, weight `0`, is
never invoked: `TriestImpr._sample_edge` does not touch counters.) -/
def updCountersI (st : ImprState) (e : Edge) : ImprState :=
  if e.card = 2 then
    let w := etaImpr st.t st.M
    let sh := sharedE st.S e
    { st with
      tau := st.tau + w * sh.card
      tauV := fun x =>
        st.tauV x + w * ((if x ∈ e then 1 else 0) * sh.card
          + (if x ∈ sh then 1 else 0)) }
  else st

/-- `TriestImpr._sample_edge`: same reservoir logic as the BASE variant,
but an eviction only removes the chosen edge from `S` — no counter
update of any kind. -/
def sampleImpr (st : ImprState) (coin : Bool) (k : ℕ) : ImprState × Bool :=
  if st.t ≤ st.M then (st, true)
  else if coin then ({ st with S := st.S.erase (pickEdge st.S k) }, true)
  else (st, false)

/-- The body of `TriestImpr.run` for one accepted candidate edge `{a, b}`
(`a ≠ b` at every call site): duplicate check, `seen` update, `t`
increment, then the *unconditional* counter update against the current
`S`, and only then the sampling decision and (if admitted) the insertion
into `S`. -/
def procImpr (st : ImprState) (a b : Vertex) (coin : Bool) (k : ℕ) : ImprState :=
  let e : Edge := {a, b}
  if st.skipDup = true ∧ e ∈ st.seen then { st with skipped := st.skipped + 1 }
  else
    let st1 := if st.skipDup then { st with seen := insert e st.seen } else st
    let st2 := { st1 with t := st1.t + 1 }
    let st3 := updCountersI st2 e
    match sampleImpr st3 coin k with
    | (st4, true) => { st4 with S := addEdge st4.S e }
    | (st4, false) => st4

/-- One loop iteration of `TriestImpr.run` on one input line; identical
line handling to `TriestBase.run`. -/
def stepImpr (st : ImprState) (l : Line) (coin : Bool) (k : ℕ) : Except Unit ImprState :=
  if l.isComment = true then .ok st
  else
    match l.toks with
    | [] => .ok st
    | [_] => .ok st
    | some a :: some b :: _ =>
        if a = b then .ok st else .ok (procImpr st a b coin k)
    | _ => .error ()

/-- `TriestImpr.run` over a whole stream of lines with their oracle
draws. -/
def runImpr : ImprState → List (Line × Bool × ℕ) → Except Unit ImprState
  | st, [] => .ok st
  | st, (l, c, k) :: rest =>
      match stepImpr st l c k with
      | .error e => .error e
      | .ok st' => runImpr st' rest

/-! ### src/Asiignment3/Steammingtriangle.py, class `TriestImproved` -/

/-- State of `Triest` / `TriestImproved` (src/Asiignment3): no duplicate
tracking and no skip counter exist there. -/
structure A3State where
  M : ℕ
  S : List Edge
  t : ℕ
  tau : ℚ
  tauV : Vertex → ℚ

/-- `Triest.__init__` (src/Asiignment3): plain field initialization, no
validation of `M`. -/
def initA3 (M : ℕ) : A3State :=
  ⟨M, [], 0, 0, fun _ => 0⟩

/-- `_get_edge` of src/Asiignment3:
`frozenset([int(vertex) for vertex in line.split()])` — *all* tokens are
parsed and collected; any unparsable token raises `ValueError` (`none`). -/
def getEdgeA3 : List (Option ℤ) → Option Edge
  | [] => some ∅
  | none :: _ => none
  | some a :: rest => (getEdgeA3 rest).map (insert a)

/-- `TriestImproved._update_counters` (src/Asiignment3):
`common = reduce(lambda a, b: a & b, [nbhd of each vertex of edge])` —
raising `TypeError` (`none`) when `edge` has no vertices — then
`for vertex in common: tau += eta; tauV[vertex] += eta;
for node in edge: tauV[node] += eta`, aggregated.  `self.eta` reads the
current `t`. -/
def updCountersA3 (st : A3State) (e : Edge) : Option A3State :=
  if e = ∅ then none
  else
    let w := etaA3 st.t st.M
    let common := sharedE st.S e
    some { st with
      tau := st.tau + w * common.card
      tauV := fun x =>
        st.tauV x + w * ((if x ∈ common then 1 else 0)
          + common.card * (if x ∈ e then 1 else 0)) }

/-- `TriestImproved._sample_edge` (src/Asiignment3): reservoir decision;
an eviction only removes the chosen edge, never touches the counters. -/
def sampleA3 (st : A3State) (coin : Bool) (k : ℕ) : A3State × Bool :=
  if st.t ≤ st.M then (st, true)
  else if coin then ({ st with S := st.S.erase (pickEdge st.S k) }, true)
  else (st, false)

/-- One loop iteration of `TriestImproved.run` (src/Asiignment3) on one
raw line: *no* comment skipping, *no* length or self-loop filtering, *no*
duplicate handling — every line is parsed, `t` is incremented, counters
are updated unconditionally, then the sampling decision is made. -/
def stepA3 (st : A3State) (toks : List (Option ℤ)) (coin : Bool) (k : ℕ) :
    Except Unit A3State :=
  match getEdgeA3 toks with
  | none => .error ()
  | some e =>
    let st1 := { st with t := st.t + 1 }
    match updCountersA3 st1 e with
    | none => .error ()
    | some st2 =>
      match sampleA3 st2 coin k with
      | (st3, true) => .ok { st3 with S := addEdge st3.S e }
      | (st3, false) => .ok st3

/-- `TriestImproved.run` (src/Asiignment3) over a stream of token lists
with their oracle draws. -/
def runA3 : A3State → List (List (Option ℤ) × Bool × ℕ) → Except Unit A3State
  | st, [] => .ok st
  | st, (l, c, k) :: rest =>
      match stepA3 st l c k with
      | .error e => .error e
      | .ok st' => runA3 st' rest

/-! ### Neighborhood lemmas -/

theorem nbhd_nil (u : Vertex) : nbhd [] u = ∅ := rfl

theorem nbhd_cons (e : Edge) (S : List Edge) (u : Vertex) :
    nbhd (e :: S) u = (if u ∈ e then e.erase u else ∅) ∪ nbhd S u := rfl

theorem mem_nbhd {S : List Edge} {u x : Vertex} :
    x ∈ nbhd S u ↔ ∃ link, link ∈ S ∧ u ∈ link ∧ x ∈ link ∧ x ≠ u := by
  induction S with
  | nil => simp [nbhd_nil]
  | cons e S ih =>
      rw [nbhd_cons]
      by_cases hu : u ∈ e
      · simp only [if_pos hu, Finset.mem_union, Finset.mem_erase, ih, List.mem_cons]
        constructor
        · rintro (⟨hx, hxe⟩ | ⟨l, hl, h1, h2, h3⟩)
          · exact ⟨e, Or.inl rfl, hu, hxe, hx⟩
          · exact ⟨l, Or.inr hl, h1, h2, h3⟩
        · rintro ⟨l, hl | hl, h1, h2, h3⟩
          · subst hl; exact Or.inl ⟨h3, h2⟩
          · exact Or.inr ⟨l, hl, h1, h2, h3⟩
      · simp only [if_neg hu, Finset.empty_union, ih, List.mem_cons]
        constructor
        · rintro ⟨l, hl, h1, h2, h3⟩; exact ⟨l, Or.inr hl, h1, h2, h3⟩
        · rintro ⟨l, hl | hl, h1, h2, h3⟩
          · subst hl; exact absurd h1 hu
          · exact ⟨l, hl, h1, h2, h3⟩

theorem not_mem_nbhd_self (S : List Edge) (u : Vertex) : u ∉ nbhd S u := by
  rw [mem_nbhd]; rintro ⟨l, _, _, _, h⟩; exact h rfl

theorem mem_shared {S : List Edge} {u v c : Vertex} :
    c ∈ shared S u v ↔ c ∈ nbhd S u ∧ c ∈ nbhd S v :=
  Finset.mem_inter

/-- For a genuine two-element edge, the edge-indexed shared neighborhood
is the endpoint-indexed one of `TriestBase._update_counters`. -/
theorem sharedE_pair {S : List Edge} {u v : Vertex} (huv : u ≠ v) :
    sharedE S {u, v} = shared S u v := by
  ext c
  simp only [sharedE, shared, Finset.mem_filter, Finset.mem_biUnion,
    Finset.mem_insert, Finset.mem_singleton, Finset.mem_inter]
  constructor
  · rintro ⟨-, h⟩
    exact ⟨h u (Or.inl rfl), h v (Or.inr rfl)⟩
  · rintro ⟨hu, hv⟩
    refine ⟨⟨u, Or.inl rfl, hu⟩, ?_⟩
    rintro w (rfl | rfl)
    · exact hu
    · exact hv

theorem mem_addEdge {S : List Edge} {e l : Edge} :
    l ∈ addEdge S e ↔ l ∈ S ∨ l = e := by
  unfold addEdge
  split
  · rename_i h
    constructor
    · exact Or.inl
    · rintro (hl | rfl)
      · exact hl
      · exact h
  · simp [List.mem_append]

theorem mem_nbhd_addEdge {S : List Edge} {e : Edge} {u x : Vertex} :
    x ∈ nbhd (addEdge S e) u ↔ x ∈ nbhd S u ∨ (u ∈ e ∧ x ∈ e ∧ x ≠ u) := by
  simp only [mem_nbhd, mem_addEdge]
  constructor
  · rintro ⟨l, hl | rfl, h1, h2, h3⟩
    · exact Or.inl ⟨l, hl, h1, h2, h3⟩
    · exact Or.inr ⟨h1, h2, h3⟩
  · rintro (⟨l, hl, h1, h2, h3⟩ | ⟨h1, h2, h3⟩)
    · exact ⟨l, Or.inl hl, h1, h2, h3⟩
    · exact ⟨e, Or.inr rfl, h1, h2, h3⟩

/-- Core neighborhood fact: the shared neighborhood of the endpoints of
an edge does not see the edge itself, because each endpoint is filtered
out of its own neighborhood.  Inserting `{u, v}` leaves
`shared _ u v` unchanged. -/
theorem shared_addEdge_self {S : List Edge} {u v : Vertex} :
    shared (addEdge S {u, v}) u v = shared S u v := by
  ext c
  simp only [mem_shared, mem_nbhd_addEdge]
  have pair_cases : ∀ w : Vertex, w ∈ ({u, v} : Edge) → w = u ∨ w = v := by
    intro w hw
    rcases Finset.mem_insert.mp hw with h | h
    · exact Or.inl h
    · exact Or.inr (Finset.mem_singleton.mp h)
  constructor
  · rintro ⟨hcu, hcv⟩
    have hu' := not_mem_nbhd_self S u
    have hv' := not_mem_nbhd_self S v
    have hcv2 : c ∈ nbhd S v := by
      rcases hcv with h | ⟨-, hc, hne⟩
      · exact h
      · rcases pair_cases c hc with hc | hc
        · exfalso
          rcases hcu with h | ⟨-, -, hne'⟩
          · rw [hc] at h; exact hu' h
          · exact hne' hc
        · exact absurd hc hne
    have hcu2 : c ∈ nbhd S u := by
      rcases hcu with h | ⟨-, hc, hne⟩
      · exact h
      · rcases pair_cases c hc with hc | hc
        · exact absurd hc hne
        · exfalso; rw [hc] at hcv2; exact hv' hcv2
    exact ⟨hcu2, hcv2⟩
  · rintro ⟨hcu, hcv⟩
    exact ⟨Or.inl hcu, Or.inl hcv⟩

theorem mem_nbhd_erase {S : List Edge} {e : Edge} {u x : Vertex}
    (hnd : S.Nodup) :
    x ∈ nbhd (S.erase e) u ↔ ∃ link, link ∈ S ∧ link ≠ e ∧ u ∈ link ∧ x ∈ link ∧ x ≠ u := by
  simp only [mem_nbhd, List.Nodup.mem_erase_iff hnd]
  constructor
  · rintro ⟨l, ⟨hne, hl⟩, h1, h2, h3⟩; exact ⟨l, hl, hne, h1, h2, h3⟩
  · rintro ⟨l, hl, hne, h1, h2, h3⟩; exact ⟨l, ⟨hne, hl⟩, h1, h2, h3⟩

/-- Erasing the edge `{u, v}` itself also leaves `shared _ u v`
unchanged. -/
theorem shared_erase_self {S : List Edge} {u v : Vertex} (hnd : S.Nodup)
    (huv : u ≠ v) :
    shared (S.erase {u, v}) u v = shared S u v := by
  ext c
  simp only [mem_shared, mem_nbhd_erase hnd, mem_nbhd]
  constructor
  · rintro ⟨⟨l, hl, -, h1, h2, h3⟩, ⟨l', hl', -, h1', h2', h3'⟩⟩
    exact ⟨⟨l, hl, h1, h2, h3⟩, ⟨l', hl', h1', h2', h3'⟩⟩
  · rintro ⟨⟨l, hl, h1, h2, h3⟩, ⟨l', hl', h1', h2', h3'⟩⟩
    have hcv : c ≠ v := h3'
    have hcu : c ≠ u := h3
    refine ⟨⟨l, hl, ?_, h1, h2, h3⟩, ⟨l', hl', ?_, h1', h2', h3'⟩⟩
    · rintro rfl
      rcases Finset.mem_insert.mp h2 with rfl | h2'
      · exact hcu rfl
      · exact hcv (Finset.mem_singleton.mp h2')
    · rintro rfl
      rcases Finset.mem_insert.mp h2' with rfl | h2''
      · exact hcu rfl
      · exact hcv (Finset.mem_singleton.mp h2'')

theorem pickEdge_mem {S : List Edge} (hS : S ≠ []) (k : ℕ) :
    pickEdge S k ∈ S := by
  unfold pickEdge
  have hlen : k % S.length < S.length := Nat.mod_lt _ (List.length_pos.mpr hS)
  rw [List.getD_eq_getElem _ _ hlen]
  exact List.getElem_mem hlen

/-! ### Field bookkeeping -/

theorem baseStateExt {s1 s2 : BaseState} (h1 : s1.M = s2.M)
    (h2 : s1.skipDup = s2.skipDup) (h3 : s1.S = s2.S) (h4 : s1.t = s2.t)
    (h5 : s1.tau = s2.tau) (h6 : s1.tauV = s2.tauV) (h7 : s1.seen = s2.seen)
    (h8 : s1.skipped = s2.skipped) : s1 = s2 := by
  cases s1; cases s2; simp_all

theorem updCountersB_S (st : BaseState) (e : Edge) (d : ℤ) :
    (updCountersB st e d).S = st.S := by
  unfold updCountersB; split <;> rfl

theorem updCountersB_M (st : BaseState) (e : Edge) (d : ℤ) :
    (updCountersB st e d).M = st.M := by
  unfold updCountersB; split <;> rfl

theorem updCountersB_t (st : BaseState) (e : Edge) (d : ℤ) :
    (updCountersB st e d).t = st.t := by
  unfold updCountersB; split <;> rfl

theorem updCountersB_skipDup (st : BaseState) (e : Edge) (d : ℤ) :
    (updCountersB st e d).skipDup = st.skipDup := by
  unfold updCountersB; split <;> rfl

theorem updCountersB_seen (st : BaseState) (e : Edge) (d : ℤ) :
    (updCountersB st e d).seen = st.seen := by
  unfold updCountersB; split <;> rfl

theorem updCountersB_skipped (st : BaseState) (e : Edge) (d : ℤ) :
    (updCountersB st e d).skipped = st.skipped := by
  unfold updCountersB; split <;> rfl

/-- The counter update commutes with replacing the sample list by one with
the same shared neighborhood for the updated edge. -/
theorem updCountersB_setS (T : BaseState) (S1 : List Edge) (e : Edge) (d : ℤ)
    (h : sharedE S1 e = sharedE T.S e) :
    updCountersB { T with S := S1 } e d = { updCountersB T e d with S := S1 } := by
  by_cases hc : e.card = 2 <;> simp [updCountersB, hc, h]

theorem addEdge_length_le (S : List Edge) (e : Edge) :
    (addEdge S e).length ≤ S.length + 1 := by
  unfold addEdge; split
  · exact Nat.le_succ _
  · simp

theorem addEdge_nodup {S : List Edge} (h : S.Nodup) (e : Edge) :
    (addEdge S e).Nodup := by
  unfold addEdge; split
  · exact h
  · rename_i he
    exact h.append (List.nodup_singleton e) (by simpa [List.disjoint_singleton] using he)

theorem addEdge_card2 {S : List Edge} {e : Edge} (hS : ∀ l ∈ S, l.card = 2)
    (he : e.card = 2) : ∀ l ∈ addEdge S e, l.card = 2 := by
  intro l hl
  rcases mem_addEdge.mp hl with hl | rfl
  · exact hS l hl
  · exact he

/-! ### The reservoir invariant (claim C1) -/

/-- Invariant of the HW3 sample list: it is no longer than both `t` and
`M`, holds no duplicate edge, and every member is a genuine two-vertex
edge (no self-loop, which would be a singleton frozenset). -/
def InvS (S : List Edge) (t M : ℕ) : Prop :=
  S.length ≤ t ∧ S.length ≤ M ∧ S.Nodup ∧ ∀ e ∈ S, e.card = 2

/-- Admission while the reservoir is filling keeps the invariant. -/
theorem fillAdd_inv {S : List Edge} {e : Edge} {t M : ℕ}
    (hI : InvS S t M) (hfill : t + 1 ≤ M) (he : e.card = 2) :
    InvS (addEdge S e) (t + 1) M := by
  obtain ⟨hlt, hlM, hnd, hc2⟩ := hI
  have hle := addEdge_length_le S e
  exact ⟨by omega, by omega, addEdge_nodup hnd e, addEdge_card2 hc2 he⟩

/-- Admission with eviction keeps the invariant, for any evicted edge
that is a member whenever the sample is nonempty (which `pickEdge`
guarantees). -/
theorem evictAdd_inv {S : List Edge} {er e : Edge} {t M : ℕ}
    (hI : InvS S t M) (hM : 1 ≤ M) (he : e.card = 2)
    (hmem : S ≠ [] → er ∈ S) :
    InvS (addEdge (S.erase er) e) (t + 1) M := by
  obtain ⟨hlt, hlM, hnd, hc2⟩ := hI
  by_cases hnil : S = []
  · subst hnil
    refine ⟨?_, ?_, ?_, ?_⟩
    · simp [addEdge]
    · simp [addEdge]; omega
    · simp [addEdge]
    · simp only [List.erase_nil]
      exact addEdge_card2 (by simp) he
  · have hm := hmem hnil
    have hlen := List.length_erase_of_mem hm
    have hle := addEdge_length_le (S.erase er) e
    have hpos : 1 ≤ S.length := List.length_pos.mpr hnil
    refine ⟨by omega, by omega, addEdge_nodup (hnd.erase er) e, ?_⟩
    refine addEdge_card2 ?_ he
    intro l hl
    exact hc2 l (List.mem_of_mem_erase hl)

/-- A rejected edge (or a duplicate skip) trivially keeps the invariant
at a non-decreased stream position. -/
theorem reject_inv {S : List Edge} {t t' M : ℕ}
    (hI : InvS S t M) (ht : t ≤ t') : InvS S t' M := by
  obtain ⟨hlt, hlM, hnd, hc2⟩ := hI
  exact ⟨by omega, hlM, hnd, hc2⟩

/-- The sample list after one accepted BASE edge keeps the invariant (at
the incremented stream position). -/
theorem procBase_inv {st : BaseState} {a b : Vertex} {c : Bool} {k : ℕ}
    (hab : a ≠ b) (hM : 3 ≤ st.M)
    (hI : InvS st.S st.t st.M) :
    InvS (procBase st a b c k).S (procBase st a b c k).t (procBase st a b c k).M := by
  have hcard : ({a, b} : Edge).card = 2 := Finset.card_pair hab
  unfold procBase
  by_cases hdup : st.skipDup = true ∧ ({a, b} : Edge) ∈ st.seen
  · simp only [if_pos hdup]
    exact hI
  · simp only [if_neg hdup]
    set st1 := if st.skipDup then { st with seen := insert {a, b} st.seen } else st with hst1
    have h1S : st1.S = st.S := by rw [hst1]; split <;> rfl
    have h1t : st1.t = st.t := by rw [hst1]; split <;> rfl
    have h1M : st1.M = st.M := by rw [hst1]; split <;> rfl
    unfold sampleBase
    by_cases hfill : st1.t + 1 ≤ st1.M
    · simp only [if_pos hfill]
      simp only [updCountersB_S, updCountersB_t, updCountersB_M, h1S, h1t, h1M]
      exact fillAdd_inv hI (by omega) hcard
    · simp only [if_neg hfill]
      by_cases hcoin : c = true
      · simp only [if_pos hcoin]
        simp only [updCountersB_S, updCountersB_t, updCountersB_M, h1S, h1t, h1M]
        refine evictAdd_inv hI (by omega) hcard ?_
        intro hnil
        exact pickEdge_mem hnil k
      · simp only [if_neg hcoin]
        simp only [h1S, h1t, h1M]
        exact reject_inv hI (by omega)

theorem sampleBase_M (st : BaseState) (c : Bool) (k : ℕ) :
    (sampleBase st c k).1.M = st.M := by
  unfold sampleBase; split_ifs <;> simp [updCountersB_M]

theorem sampleBase_t (st : BaseState) (c : Bool) (k : ℕ) :
    (sampleBase st c k).1.t = st.t := by
  unfold sampleBase; split_ifs <;> simp [updCountersB_t]

theorem sampleBase_skipDup (st : BaseState) (c : Bool) (k : ℕ) :
    (sampleBase st c k).1.skipDup = st.skipDup := by
  unfold sampleBase; split_ifs <;> simp [updCountersB_skipDup]

theorem sampleBase_seen (st : BaseState) (c : Bool) (k : ℕ) :
    (sampleBase st c k).1.seen = st.seen := by
  unfold sampleBase; split_ifs <;> simp [updCountersB_seen]

theorem sampleBase_skipped (st : BaseState) (c : Bool) (k : ℕ) :
    (sampleBase st c k).1.skipped = st.skipped := by
  unfold sampleBase; split_ifs <;> simp [updCountersB_skipped]

theorem procBase_M (st : BaseState) (a b : Vertex) (c : Bool) (k : ℕ) :
    (procBase st a b c k).M = st.M := by
  unfold procBase
  by_cases hdup : st.skipDup = true ∧ ({a, b} : Edge) ∈ st.seen
  · simp [if_pos hdup]
  · simp only [if_neg hdup]
    set st1 := if st.skipDup then { st with seen := insert {a, b} st.seen } else st with hst1
    have h1M : st1.M = st.M := by rw [hst1]; split <;> rfl
    unfold sampleBase
    by_cases hfill : st1.t + 1 ≤ st1.M
    · simp only [if_pos hfill]
      simp [updCountersB_M, h1M]
    · simp only [if_neg hfill]
      by_cases hcoin : c = true
      · simp only [if_pos hcoin]
        simp [updCountersB_M, h1M]
      · simp only [if_neg hcoin]
        simp [h1M]

theorem procBase_skipDup (st : BaseState) (a b : Vertex) (c : Bool) (k : ℕ) :
    (procBase st a b c k).skipDup = st.skipDup := by
  unfold procBase
  by_cases hdup : st.skipDup = true ∧ ({a, b} : Edge) ∈ st.seen
  · simp [if_pos hdup]
  · simp only [if_neg hdup]
    set st1 := if st.skipDup then { st with seen := insert {a, b} st.seen } else st with hst1
    have h1 : st1.skipDup = st.skipDup := by rw [hst1]; split <;> rfl
    unfold sampleBase
    by_cases hfill : st1.t + 1 ≤ st1.M
    · simp only [if_pos hfill]
      simp [updCountersB_skipDup, h1]
    · simp only [if_neg hfill]
      by_cases hcoin : c = true
      · simp only [if_pos hcoin]
        simp [updCountersB_skipDup, h1]
      · simp only [if_neg hcoin]
        simp [h1]

/-- Exhaustive classification of one BASE line step, determined by the
line alone: either the line is always skipped with the state returned
unchanged, or it always hands a well-formed fresh candidate edge to
`procBase`, or `int()` always raises and the run aborts. -/
theorem stepBase_classify (l : Line) :
    (∀ st : BaseState, ∀ c k, stepBase st l c k = .ok st) ∨
    (∃ a b, a ≠ b ∧ l.toks.take 2 = [some a, some b] ∧
      ∀ st : BaseState, ∀ c k, stepBase st l c k = .ok (procBase st a b c k)) ∨
    (∀ st : BaseState, ∀ c k, stepBase st l c k = .error ()) := by
  rcases l with ⟨lc, toks⟩
  cases lc
  · rcases toks with - | ⟨t0, ts⟩
    · exact Or.inl (fun st c k => rfl)
    · rcases t0 with - | a
      · rcases ts with - | ⟨t1, ts'⟩
        · exact Or.inl (fun st c k => rfl)
        · exact Or.inr (Or.inr (fun st c k => rfl))
      · rcases ts with - | ⟨t1, ts'⟩
        · exact Or.inl (fun st c k => rfl)
        · rcases t1 with - | b
          · exact Or.inr (Or.inr (fun st c k => rfl))
          · by_cases hab : a = b
            · exact Or.inl (fun st c k => by simp [stepBase, hab])
            · exact Or.inr (Or.inl ⟨a, b, hab, by simp,
                fun st c k => by simp [stepBase, hab]⟩)
  · exact Or.inl (fun st c k => rfl)

theorem stepBase_inv {st st' : BaseState} {l : Line} {c : Bool} {k : ℕ}
    (hM : 3 ≤ st.M) (hI : InvS st.S st.t st.M)
    (h : stepBase st l c k = .ok st') :
    InvS st'.S st'.t st'.M ∧ st'.M = st.M ∧ st'.skipDup = st.skipDup := by
  rcases stepBase_classify l with h0 | ⟨a, b, hab, -, h0⟩ | h0
  · rw [h0 st c k] at h; cases h; exact ⟨hI, rfl, rfl⟩
  · rw [h0 st c k] at h
    cases h
    exact ⟨procBase_inv hab hM hI, procBase_M st a b c k,
      procBase_skipDup st a b c k⟩
  · rw [h0 st c k] at h; cases h

theorem runBase_inv {ls : List (Line × Bool × ℕ)} {st st' : BaseState}
    (hM : 3 ≤ st.M) (hI : InvS st.S st.t st.M)
    (h : runBase st ls = .ok st') :
    InvS st'.S st'.t st'.M ∧ st'.M = st.M := by
  induction ls generalizing st with
  | nil =>
      unfold runBase at h
      cases h
      exact ⟨hI, rfl⟩
  | cons p rest ih =>
      rcases p with ⟨l, c, k⟩
      unfold runBase at h
      rcases hs : stepBase st l c k with e1 | st1
      · rw [hs] at h; cases h
      · rw [hs] at h
        obtain ⟨hI1, hM1, -⟩ := stepBase_inv hM hI hs
        obtain ⟨hI', hM'⟩ := ih (hM1 ▸ hM) hI1 h
        exact ⟨hI', by omega⟩

theorem imprStateExt {s1 s2 : ImprState} (h1 : s1.M = s2.M)
    (h2 : s1.skipDup = s2.skipDup) (h3 : s1.S = s2.S) (h4 : s1.t = s2.t)
    (h5 : s1.tau = s2.tau) (h6 : s1.tauV = s2.tauV) (h7 : s1.seen = s2.seen)
    (h8 : s1.skipped = s2.skipped) : s1 = s2 := by
  cases s1; cases s2; simp_all

theorem updCountersI_S (st : ImprState) (e : Edge) :
    (updCountersI st e).S = st.S := by
  unfold updCountersI; split <;> rfl

theorem updCountersI_M (st : ImprState) (e : Edge) :
    (updCountersI st e).M = st.M := by
  unfold updCountersI; split <;> rfl

theorem updCountersI_t (st : ImprState) (e : Edge) :
    (updCountersI st e).t = st.t := by
  unfold updCountersI; split <;> rfl

theorem updCountersI_skipDup (st : ImprState) (e : Edge) :
    (updCountersI st e).skipDup = st.skipDup := by
  unfold updCountersI; split <;> rfl

theorem updCountersI_seen (st : ImprState) (e : Edge) :
    (updCountersI st e).seen = st.seen := by
  unfold updCountersI; split <;> rfl

theorem updCountersI_skipped (st : ImprState) (e : Edge) :
    (updCountersI st e).skipped = st.skipped := by
  unfold updCountersI; split <;> rfl

/-- `TriestImpr._sample_edge` never touches the counters: it returns the
state with `tau` and the whole per-vertex map untouched, and `S` either
unchanged or with exactly the picked edge removed. -/
theorem sampleImpr_spec (st : ImprState) (c : Bool) (k : ℕ) :
    (sampleImpr st c k).1.tau = st.tau ∧ (sampleImpr st c k).1.tauV = st.tauV ∧
    (sampleImpr st c k).1.t = st.t ∧ (sampleImpr st c k).1.M = st.M ∧
    (sampleImpr st c k).1.skipDup = st.skipDup ∧
    (sampleImpr st c k).1.seen = st.seen ∧
    (sampleImpr st c k).1.skipped = st.skipped ∧
    ((sampleImpr st c k).1.S = st.S ∨
      (sampleImpr st c k).1.S = st.S.erase (pickEdge st.S k)) := by
  unfold sampleImpr
  split_ifs <;> simp

theorem procImpr_inv {st : ImprState} {a b : Vertex} {c : Bool} {k : ℕ}
    (hab : a ≠ b) (hM : 3 ≤ st.M)
    (hI : InvS st.S st.t st.M) :
    InvS (procImpr st a b c k).S (procImpr st a b c k).t (procImpr st a b c k).M := by
  have hcard : ({a, b} : Edge).card = 2 := Finset.card_pair hab
  unfold procImpr
  by_cases hdup : st.skipDup = true ∧ ({a, b} : Edge) ∈ st.seen
  · simp only [if_pos hdup]
    exact hI
  · simp only [if_neg hdup]
    set st1 := if st.skipDup then { st with seen := insert {a, b} st.seen } else st with hst1
    have h1S : st1.S = st.S := by rw [hst1]; split <;> rfl
    have h1t : st1.t = st.t := by rw [hst1]; split <;> rfl
    have h1M : st1.M = st.M := by rw [hst1]; split <;> rfl
    unfold sampleImpr
    simp only [updCountersI_S, updCountersI_t, updCountersI_M]
    by_cases hfill : st1.t + 1 ≤ st1.M
    · simp only [if_pos hfill]
      simp only [updCountersI_S, updCountersI_t, updCountersI_M, h1S, h1t, h1M]
      exact fillAdd_inv hI (by omega) hcard
    · simp only [if_neg hfill]
      by_cases hcoin : c = true
      · simp only [if_pos hcoin]
        simp only [updCountersI_S, updCountersI_t, updCountersI_M, h1S, h1t, h1M]
        refine evictAdd_inv hI (by omega) hcard ?_
        intro hnil
        exact pickEdge_mem hnil k
      · simp only [if_neg hcoin]
        simp only [updCountersI_S, updCountersI_t, updCountersI_M, h1S, h1t, h1M]
        exact reject_inv hI (by omega)

theorem procImpr_M (st : ImprState) (a b : Vertex) (c : Bool) (k : ℕ) :
    (procImpr st a b c k).M = st.M := by
  unfold procImpr
  by_cases hdup : st.skipDup = true ∧ ({a, b} : Edge) ∈ st.seen
  · simp [if_pos hdup]
  · simp only [if_neg hdup]
    set st1 := if st.skipDup then { st with seen := insert {a, b} st.seen } else st with hst1
    have h1M : st1.M = st.M := by rw [hst1]; split <;> rfl
    unfold sampleImpr
    simp only [updCountersI_t, updCountersI_M]
    by_cases hfill : st1.t + 1 ≤ st1.M
    · simp only [if_pos hfill]
      simp [updCountersI_M, h1M]
    · simp only [if_neg hfill]
      by_cases hcoin : c = true
      · simp only [if_pos hcoin]
        simp [updCountersI_M, h1M]
      · simp only [if_neg hcoin]
        simp [updCountersI_M, h1M]

/-- Exhaustive description of one IMPROVED line step, mirroring
`stepBase_cases`. -/
theorem stepImpr_cases (st : ImprState) (l : Line) (c : Bool) (k : ℕ) :
    stepImpr st l c k = .ok st ∨
    (∃ a b, a ≠ b ∧ l.toks.take 2 = [some a, some b] ∧
      stepImpr st l c k = .ok (procImpr st a b c k)) ∨
    stepImpr st l c k = .error () := by
  rcases l with ⟨lc, toks⟩
  cases lc
  · rcases toks with - | ⟨t0, ts⟩
    · exact Or.inl rfl
    · rcases t0 with - | a
      · rcases ts with - | ⟨t1, ts'⟩
        · exact Or.inl rfl
        · exact Or.inr (Or.inr rfl)
      · rcases ts with - | ⟨t1, ts'⟩
        · exact Or.inl rfl
        · rcases t1 with - | b
          · exact Or.inr (Or.inr rfl)
          · by_cases hab : a = b
            · exact Or.inl (by simp [stepImpr, hab])
            · exact Or.inr (Or.inl ⟨a, b, hab, by simp, by simp [stepImpr, hab]⟩)
  · exact Or.inl rfl

theorem stepImpr_inv {st st' : ImprState} {l : Line} {c : Bool} {k : ℕ}
    (hM : 3 ≤ st.M) (hI : InvS st.S st.t st.M)
    (h : stepImpr st l c k = .ok st') :
    InvS st'.S st'.t st'.M ∧ st'.M = st.M := by
  rcases stepImpr_cases st l c k with h0 | ⟨a, b, hab, -, h0⟩ | h0
  · rw [h0] at h; cases h; exact ⟨hI, rfl⟩
  · rw [h0] at h
    cases h
    exact ⟨procImpr_inv hab hM hI, procImpr_M st a b c k⟩
  · rw [h0] at h; cases h

theorem runImpr_inv {ls : List (Line × Bool × ℕ)} {st st' : ImprState}
    (hM : 3 ≤ st.M) (hI : InvS st.S st.t st.M)
    (h : runImpr st ls = .ok st') :
    InvS st'.S st'.t st'.M ∧ st'.M = st.M := by
  induction ls generalizing st with
  | nil =>
      unfold runImpr at h
      cases h
      exact ⟨hI, rfl⟩
  | cons p rest ih =>
      rcases p with ⟨l, c, k⟩
      unfold runImpr at h
      rcases hs : stepImpr st l c k with e1 | st1
      · rw [hs] at h; cases h
      · rw [hs] at h
        obtain ⟨hI1, hM1⟩ := stepImpr_inv hM hI hs
        obtain ⟨hI', hM'⟩ := ih (hM1 ▸ hM) hI1 h
        exact ⟨hI', by omega⟩

/-! ### Shared-neighborhood insensitivity corollaries -/

theorem sharedE_addEdge_self {S : List Edge} {e : Edge} (h2 : e.card = 2) :
    sharedE (addEdge S e) e = sharedE S e := by
  obtain ⟨u, v, huv, rfl⟩ := Finset.card_eq_two.mp h2
  rw [sharedE_pair huv, sharedE_pair huv, shared_addEdge_self]

theorem sharedE_erase_self {S : List Edge} {e : Edge} (hnd : S.Nodup)
    (h2 : e.card = 2) :
    sharedE (S.erase e) e = sharedE S e := by
  obtain ⟨u, v, huv, rfl⟩ := Finset.card_eq_two.mp h2
  rw [sharedE_pair huv, sharedE_pair huv, shared_erase_self hnd huv]

theorem sharedE_erase_self' {S : List Edge} {e : Edge} (hnd : S.Nodup)
    (h2 : e ∈ S → e.card = 2) :
    sharedE (S.erase e) e = sharedE S e := by
  by_cases hm : e ∈ S
  · exact sharedE_erase_self hnd (h2 hm)
  · rw [List.erase_of_not_mem hm]

/-! ### Counter-update value lemmas -/

theorem updCountersB_tau {st : BaseState} {e : Edge} (d : ℤ) (h : e.card = 2) :
    (updCountersB st e d).tau = st.tau + d * ((sharedE st.S e).card : ℤ) := by
  simp [updCountersB, h]

theorem updCountersB_tauV {st : BaseState} {e : Edge} (d : ℤ) (h : e.card = 2) :
    (updCountersB st e d).tauV = fun x =>
      st.tauV x + d * ((if x ∈ e then 1 else 0) * ((sharedE st.S e).card : ℤ)
        + (if x ∈ sharedE st.S e then 1 else 0)) := by
  simp [updCountersB, h]

theorem updCountersI_tau {st : ImprState} {e : Edge} (h : e.card = 2) :
    (updCountersI st e).tau
      = st.tau + etaImpr st.t st.M * ((sharedE st.S e).card : ℚ) := by
  simp [updCountersI, h]

theorem updCountersI_tauV {st : ImprState} {e : Edge} (h : e.card = 2) :
    (updCountersI st e).tauV = fun x =>
      st.tauV x + etaImpr st.t st.M *
        ((if x ∈ e then 1 else 0) * ((sharedE st.S e).card : ℚ)
          + (if x ∈ sharedE st.S e then 1 else 0)) := by
  simp [updCountersI, h]

/-! ### Nonnegative weights -/

theorem one_le_etaImpr (t M : ℕ) : 1 ≤ etaImpr t M := by
  unfold etaImpr
  split
  · exact le_refl 1
  · exact le_max_left 1 _

theorem etaImpr_nonneg (t M : ℕ) : 0 ≤ etaImpr t M :=
  le_trans zero_le_one (one_le_etaImpr t M)

theorem one_le_etaA3 (t M : ℕ) : 1 ≤ etaA3 t M :=
  le_max_left 1 _

theorem etaA3_nonneg (t M : ℕ) : 0 ≤ etaA3 t M :=
  le_trans zero_le_one (one_le_etaA3 t M)

/-! ### Duplicate bookkeeping (claim C9) -/

theorem procBase_dup {st : BaseState} {a b : Vertex} (c : Bool) (k : ℕ)
    (hdup : st.skipDup = true ∧ ({a, b} : Edge) ∈ st.seen) :
    procBase st a b c k = { st with skipped := st.skipped + 1 } := by
  simp [procBase, hdup]

theorem procBase_seen_mem (st : BaseState) (a b : Vertex) (c : Bool) (k : ℕ)
    (hsd : st.skipDup = true) :
    ({a, b} : Edge) ∈ (procBase st a b c k).seen := by
  unfold procBase
  by_cases hdup : st.skipDup = true ∧ ({a, b} : Edge) ∈ st.seen
  · simp only [if_pos hdup]
    exact hdup.2
  · simp only [if_neg hdup]
    set st1 := if st.skipDup then { st with seen := insert {a, b} st.seen } else st with hst1
    have h1 : ({a, b} : Edge) ∈ st1.seen := by
      rw [hst1, if_pos hsd]
      exact Finset.mem_insert_self _ _
    unfold sampleBase
    by_cases hfill : st1.t + 1 ≤ st1.M
    · simp only [if_pos hfill]
      simpa [updCountersB_seen] using h1
    · simp only [if_neg hfill]
      by_cases hcoin : c = true
      · simp only [if_pos hcoin]
        simpa [updCountersB_seen] using h1
      · simp only [if_neg hcoin]
        simpa using h1

/-! ### Spec-ordered BASE protocol (refinement comparison for claim C2)

The following two definitions follow the *specification's* wording
(section 4.4): on eviction, first compute and subtract the evicted
edge's triangle contribution against the current `S` *before* removing
it; on admission, compute and add the new edge's contribution against
`S` as it stands *before* inserting it, then insert.  They are compared
against `sampleBase`/`procBase`, which embed the source code's actual
order (remove-then-subtract, insert-then-add). -/

def specSampleBase (st : BaseState) (coin : Bool) (k : ℕ) : BaseState × Bool :=
  if st.t ≤ st.M then (st, true)
  else if coin then
    let er := pickEdge st.S k
    let st1 := updCountersB st er (-1)
    ({ st1 with S := st1.S.erase er }, true)
  else (st, false)

def specProcBase (st : BaseState) (a b : Vertex) (coin : Bool) (k : ℕ) : BaseState :=
  let e : Edge := {a, b}
  if st.skipDup = true ∧ e ∈ st.seen then { st with skipped := st.skipped + 1 }
  else
    let st1 := if st.skipDup then { st with seen := insert e st.seen } else st
    let st2 := { st1 with t := st1.t + 1 }
    match specSampleBase st2 coin k with
    | (st3, true) =>
        let st4 := updCountersB st3 e 1
        { st4 with S := addEdge st4.S e }
    | (st3, false) => st3

theorem specSampleBase_eq (st : BaseState) (c : Bool) (k : ℕ)
    (hnd : st.S.Nodup) (hc2 : ∀ e ∈ st.S, e.card = 2) :
    sampleBase st c k = specSampleBase st c k := by
  unfold sampleBase specSampleBase
  by_cases hfill : st.t ≤ st.M
  · simp only [if_pos hfill]
  · simp only [if_neg hfill]
    by_cases hcoin : c = true
    · simp only [if_pos hcoin]
      have hsh : sharedE (st.S.erase (pickEdge st.S k)) (pickEdge st.S k)
          = sharedE st.S (pickEdge st.S k) :=
        sharedE_erase_self' hnd (fun hm => hc2 _ hm)
      rw [updCountersB_setS st (st.S.erase (pickEdge st.S k)) (pickEdge st.S k) (-1) hsh]
      rw [updCountersB_S]
    · simp only [if_neg hcoin]
theorem procBase_eq_spec (st : BaseState) (a b : Vertex) (c : Bool) (k : ℕ)
    (hab : a ≠ b) (hnd : st.S.Nodup) (hc2 : ∀ e ∈ st.S, e.card = 2) :
    procBase st a b c k = specProcBase st a b c k := by
  unfold procBase specProcBase
  by_cases hdup : st.skipDup = true ∧ ({a, b} : Edge) ∈ st.seen
  · simp only [if_pos hdup]
  · simp only [if_neg hdup]
    set st1 := if st.skipDup then { st with seen := insert {a, b} st.seen } else st with hst1
    have h1S : st1.S = st.S := by rw [hst1]; split <;> rfl
    have hnd1 : ({ st1 with t := st1.t + 1 } : BaseState).S.Nodup := by
      show st1.S.Nodup
      rw [h1S]; exact hnd
    have hc21 : ∀ e ∈ ({ st1 with t := st1.t + 1 } : BaseState).S, e.card = 2 := by
      show ∀ e ∈ st1.S, e.card = 2
      rw [h1S]; exact hc2
    rw [specSampleBase_eq { st1 with t := st1.t + 1 } c k hnd1 hc21]
    rcases hs : specSampleBase { st1 with t := st1.t + 1 } c k with ⟨st3, fl⟩
    cases fl
    · rfl
    · show updCountersB { st3 with S := addEdge st3.S {a, b} } {a, b} 1
        = { updCountersB st3 {a, b} 1 with
              S := addEdge (updCountersB st3 {a, b} 1).S {a, b} }
      rw [updCountersB_S st3 {a, b} 1]
      exact updCountersB_setS st3 (addEdge st3.S {a, b}) {a, b} 1
        (sharedE_addEdge_self (Finset.card_pair hab))
/-! ### Monotonicity of the IMPROVED counters (claim C4) -/

theorem updCountersI_mono (st : ImprState) (e : Edge) :
    st.tau ≤ (updCountersI st e).tau ∧ ∀ x, st.tauV x ≤ (updCountersI st e).tauV x := by
  unfold updCountersI
  split
  · constructor
    · exact le_add_of_nonneg_right (mul_nonneg (etaImpr_nonneg _ _) (by positivity))
    · intro x
      refine le_add_of_nonneg_right (mul_nonneg (etaImpr_nonneg _ _) (add_nonneg ?_ ?_))
      · refine mul_nonneg ?_ (by positivity)
        split <;> norm_num
      · split <;> norm_num
  · exact ⟨le_refl _, fun x => le_refl _⟩

theorem procImpr_mono (st : ImprState) (a b : Vertex) (c : Bool) (k : ℕ) :
    st.tau ≤ (procImpr st a b c k).tau ∧
      ∀ x, st.tauV x ≤ (procImpr st a b c k).tauV x := by
  unfold procImpr
  by_cases hdup : st.skipDup = true ∧ ({a, b} : Edge) ∈ st.seen
  · simp only [if_pos hdup]
    exact ⟨le_refl _, fun x => le_refl _⟩
  · simp only [if_neg hdup]
    set st1 := if st.skipDup then { st with seen := insert {a, b} st.seen } else st with hst1
    have h1tau : st1.tau = st.tau := by rw [hst1]; split <;> rfl
    have h1tauV : st1.tauV = st.tauV := by rw [hst1]; split <;> rfl
    obtain ⟨hu1, hu2⟩ := updCountersI_mono { st1 with t := st1.t + 1 } {a, b}
    rcases hsmp : sampleImpr (updCountersI { st1 with t := st1.t + 1 } {a, b}) c k
      with ⟨st4, fl⟩
    have hspec := sampleImpr_spec (updCountersI { st1 with t := st1.t + 1 } {a, b}) c k
    rw [hsmp] at hspec
    obtain ⟨htau4, htauV4, -⟩ := hspec
    cases fl
    · constructor
      · calc st.tau = st1.tau := h1tau.symm
          _ ≤ (updCountersI { st1 with t := st1.t + 1 } {a, b}).tau := hu1
          _ = st4.tau := htau4.symm
      · intro x
        calc st.tauV x = st1.tauV x := by rw [h1tauV]
          _ ≤ (updCountersI { st1 with t := st1.t + 1 } {a, b}).tauV x := hu2 x
          _ = st4.tauV x := by rw [htauV4]
    · constructor
      · calc st.tau = st1.tau := h1tau.symm
          _ ≤ (updCountersI { st1 with t := st1.t + 1 } {a, b}).tau := hu1
          _ = st4.tau := htau4.symm
      · intro x
        calc st.tauV x = st1.tauV x := by rw [h1tauV]
          _ ≤ (updCountersI { st1 with t := st1.t + 1 } {a, b}).tauV x := hu2 x
          _ = st4.tauV x := by rw [htauV4]

theorem stepImpr_mono {st st' : ImprState} {l : Line} {c : Bool} {k : ℕ}
    (h : stepImpr st l c k = .ok st') :
    st.tau ≤ st'.tau ∧ ∀ x, st.tauV x ≤ st'.tauV x := by
  rcases stepImpr_cases st l c k with h0 | ⟨a, b, hab, -, h0⟩ | h0
  · rw [h0] at h; cases h; exact ⟨le_refl _, fun x => le_refl _⟩
  · rw [h0] at h; cases h; exact procImpr_mono st a b c k
  · rw [h0] at h; cases h

/-! ### A3 helper lemmas -/

theorem sampleA3_spec (st : A3State) (c : Bool) (k : ℕ) :
    (sampleA3 st c k).1.tau = st.tau ∧ (sampleA3 st c k).1.tauV = st.tauV ∧
    (sampleA3 st c k).1.t = st.t ∧ (sampleA3 st c k).1.M = st.M ∧
    ((sampleA3 st c k).1.S = st.S ∨
      (sampleA3 st c k).1.S = st.S.erase (pickEdge st.S k)) := by
  unfold sampleA3
  split_ifs <;> simp

theorem getEdgeA3_pair (a b : ℤ) : getEdgeA3 [some a, some b] = some {a, b} := by
  simp [getEdgeA3]

theorem updCountersA3_mono {st st2 : A3State} {e : Edge}
    (h : updCountersA3 st e = some st2) :
    st.tau ≤ st2.tau ∧ ∀ x, st.tauV x ≤ st2.tauV x := by
  unfold updCountersA3 at h
  by_cases hne : e = ∅
  · rw [if_pos hne] at h; cases h
  · rw [if_neg hne] at h
    cases h
    constructor
    · exact le_add_of_nonneg_right (mul_nonneg (etaA3_nonneg _ _) (by positivity))
    · intro x
      refine le_add_of_nonneg_right (mul_nonneg (etaA3_nonneg _ _) (add_nonneg ?_ ?_))
      · split <;> norm_num
      · refine mul_nonneg (by positivity) ?_
        split <;> norm_num

theorem stepA3_mono {sa sa' : A3State} {la : List (Option ℤ)} {c : Bool} {k : ℕ}
    (h : stepA3 sa la c k = .ok sa') :
    sa.tau ≤ sa'.tau ∧ ∀ x, sa.tauV x ≤ sa'.tauV x := by
  unfold stepA3 at h
  rcases hg : getEdgeA3 la with - | e
  · rw [hg] at h; cases h
  · rw [hg] at h
    dsimp only at h
    rcases hu : updCountersA3 { sa with t := sa.t + 1 } e with - | st2
    · rw [hu] at h; cases h
    · rw [hu] at h
      dsimp only at h
      obtain ⟨h1, h2⟩ := updCountersA3_mono hu
      rcases hsmp : sampleA3 st2 c k with ⟨st3, fl⟩
      have hspec := sampleA3_spec st2 c k
      rw [hsmp] at hspec
      obtain ⟨e1, e2, -⟩ := hspec
      rw [hsmp] at h
      cases fl
      · cases h
        exact ⟨le_trans h1 (le_of_eq e1.symm), fun x =>
          le_trans (h2 x) (le_of_eq (by rw [e2]))⟩
      · cases h
        exact ⟨le_trans h1 (le_of_eq e1.symm), fun x =>
          le_trans (h2 x) (le_of_eq (by rw [e2]))⟩

/-! ### IMPROVED counter values for an accepted edge (claim C3) -/

theorem procImpr_counters (st : ImprState) (a b : Vertex) (c : Bool) (k : ℕ)
    (hab : a ≠ b) (hdup : ¬(st.skipDup = true ∧ ({a, b} : Edge) ∈ st.seen)) :
    (procImpr st a b c k).tau
        = st.tau + etaImpr (st.t + 1) st.M * ((shared st.S a b).card : ℚ) ∧
    ∀ x, (procImpr st a b c k).tauV x
        = st.tauV x + etaImpr (st.t + 1) st.M *
            ((if x ∈ ({a, b} : Edge) then 1 else 0) * ((shared st.S a b).card : ℚ)
              + (if x ∈ shared st.S a b then 1 else 0)) := by
  unfold procImpr
  simp only [if_neg hdup]
  set st1 := if st.skipDup then { st with seen := insert {a, b} st.seen } else st with hst1
  have h1tau : st1.tau = st.tau := by rw [hst1]; split <;> rfl
  have h1tauV : st1.tauV = st.tauV := by rw [hst1]; split <;> rfl
  have h1S : st1.S = st.S := by rw [hst1]; split <;> rfl
  have h1t : st1.t = st.t := by rw [hst1]; split <;> rfl
  have h1M : st1.M = st.M := by rw [hst1]; split <;> rfl
  have hcard : ({a, b} : Edge).card = 2 := Finset.card_pair hab
  have hsE : sharedE st1.S ({a, b} : Edge) = shared st.S a b := by
    rw [h1S, sharedE_pair hab]
  have hutau : (updCountersI { st1 with t := st1.t + 1 } {a, b}).tau
      = st.tau + etaImpr (st.t + 1) st.M * ((shared st.S a b).card : ℚ) := by
    rw [updCountersI_tau hcard]
    show st1.tau + etaImpr (st1.t + 1) st1.M * ((sharedE st1.S {a, b}).card : ℚ) = _
    rw [h1tau, h1t, h1M, hsE]
  have hutauV : ∀ x, (updCountersI { st1 with t := st1.t + 1 } {a, b}).tauV x
      = st.tauV x + etaImpr (st.t + 1) st.M *
          ((if x ∈ ({a, b} : Edge) then 1 else 0) * ((shared st.S a b).card : ℚ)
            + (if x ∈ shared st.S a b then 1 else 0)) := by
    intro x
    rw [updCountersI_tauV hcard]
    show st1.tauV x + etaImpr (st1.t + 1) st1.M *
        ((if x ∈ ({a, b} : Edge) then 1 else 0) * ((sharedE st1.S {a, b}).card : ℚ)
          + (if x ∈ sharedE st1.S {a, b} then 1 else 0)) = _
    rw [h1tauV, h1t, h1M, hsE]
  rcases hsmp : sampleImpr (updCountersI { st1 with t := st1.t + 1 } {a, b}) c k
    with ⟨st4, fl⟩
  have hspec := sampleImpr_spec (updCountersI { st1 with t := st1.t + 1 } {a, b}) c k
  rw [hsmp] at hspec
  obtain ⟨htau4, htauV4, -⟩ := hspec
  cases fl
  · exact ⟨by rw [show (st4 : ImprState).tau = _ from htau4, hutau],
      fun x => by rw [show (st4 : ImprState).tauV = _ from htauV4, hutauV]⟩
  · constructor
    · show st4.tau = _
      rw [show (st4 : ImprState).tau = _ from htau4, hutau]
    · intro x
      show st4.tauV x = _
      rw [show (st4 : ImprState).tauV = _ from htauV4, hutauV]

theorem updCountersA3_eq (st : A3State) {e : Edge} (hne : e ≠ ∅) :
    updCountersA3 st e = some
      { st with
        tau := st.tau + etaA3 st.t st.M * ((sharedE st.S e).card : ℚ)
        tauV := fun x => st.tauV x + etaA3 st.t st.M *
          ((if x ∈ sharedE st.S e then 1 else 0)
            + ((sharedE st.S e).card : ℚ) * (if x ∈ e then 1 else 0)) } := by
  simp [updCountersA3, hne]

/-- The A3 IMPROVED step on a well-formed two-vertex line: counters are
advanced by the η-weighted contribution against the pre-step sample,
independently of the sampling decision. -/
theorem stepA3_counters (sa : A3State) (a b : Vertex) (c : Bool) (k : ℕ)
    (hab : a ≠ b) :
    ∃ sa', stepA3 sa [some a, some b] c k = .ok sa' ∧
      sa'.tau = sa.tau + etaA3 (sa.t + 1) sa.M * ((shared sa.S a b).card : ℚ) ∧
      ∀ x, sa'.tauV x = sa.tauV x + etaA3 (sa.t + 1) sa.M *
          ((if x ∈ shared sa.S a b then 1 else 0)
            + ((shared sa.S a b).card : ℚ) * (if x ∈ ({a, b} : Edge) then 1 else 0)) := by
  have hne : ({a, b} : Edge) ≠ ∅ := Finset.insert_ne_empty _ _
  unfold stepA3
  rw [getEdgeA3_pair]
  dsimp only
  rw [updCountersA3_eq { sa with t := sa.t + 1 } hne]
  dsimp only
  have hsE : sharedE ({ sa with t := sa.t + 1 } : A3State).S ({a, b} : Edge)
      = shared sa.S a b := sharedE_pair hab
  set st2 : A3State :=
    { M := sa.M, S := sa.S, t := sa.t + 1,
      tau := sa.tau + etaA3 (sa.t + 1) sa.M * ((sharedE sa.S {a, b}).card : ℚ),
      tauV := fun x => sa.tauV x + etaA3 (sa.t + 1) sa.M *
        ((if x ∈ sharedE sa.S {a, b} then 1 else 0)
          + ((sharedE sa.S {a, b}).card : ℚ) * (if x ∈ ({a, b} : Edge) then 1 else 0)) }
    with hst2
  rcases hsmp : sampleA3 st2 c k with ⟨st3, fl⟩
  have hspec := sampleA3_spec st2 c k
  rw [hsmp] at hspec
  obtain ⟨e1, e2, -⟩ := hspec
  have h2tau : st2.tau = sa.tau + etaA3 (sa.t + 1) sa.M * ((shared sa.S a b).card : ℚ) := by
    rw [hst2]
    show sa.tau + etaA3 (sa.t + 1) sa.M * ((sharedE sa.S {a, b}).card : ℚ) = _
    rw [sharedE_pair hab]
  have h2tauV : ∀ x, st2.tauV x = sa.tauV x + etaA3 (sa.t + 1) sa.M *
      ((if x ∈ shared sa.S a b then 1 else 0)
        + ((shared sa.S a b).card : ℚ) * (if x ∈ ({a, b} : Edge) then 1 else 0)) := by
    intro x
    rw [hst2]
    show sa.tauV x + etaA3 (sa.t + 1) sa.M *
        ((if x ∈ sharedE sa.S {a, b} then 1 else 0)
          + ((sharedE sa.S {a, b}).card : ℚ) * (if x ∈ ({a, b} : Edge) then 1 else 0)) = _
    rw [sharedE_pair hab]
  cases fl
  · refine ⟨st3, rfl, ?_, ?_⟩
    · rw [show (st3 : A3State).tau = st2.tau from e1, h2tau]
    · intro x
      rw [show (st3 : A3State).tauV = st2.tauV from e2]
      exact h2tauV x
  · refine ⟨{ st3 with S := addEdge st3.S {a, b} }, rfl, ?_, ?_⟩
    · show st3.tau = _
      rw [show (st3 : A3State).tau = st2.tau from e1, h2tau]
    · intro x
      show st3.tauV x = _
      rw [show (st3 : A3State).tauV = st2.tauV from e2]
      exact h2tauV x

/-! ### Scaling-factor arithmetic (claim C5) -/

theorem xiBase_eq_one {t M : ℕ} (h : t ≤ M) : xiBase t M = 1 := by
  unfold xiBase
  rw [if_pos h]

theorem etaImpr_eq_one {t M : ℕ} (hM : 3 ≤ M) (h : t ≤ M) : etaImpr t M = 1 := by
  unfold etaImpr
  split
  · rfl
  · rename_i h3
    push_neg at h3
    have hM3 : (3:ℚ) ≤ (M:ℚ) := by exact_mod_cast hM
    have ht' : ((t:ℚ)) ≤ (M:ℚ) := by exact_mod_cast h
    have ht3 : (3:ℚ) ≤ (t:ℚ) := by exact_mod_cast h3
    have hden : (0:ℚ) < (M:ℚ) * ((M:ℚ) - 1) := by nlinarith
    refine max_eq_left ((div_le_one hden).mpr ?_)
    nlinarith

theorem etaA3_eq_one {t M : ℕ} (hM : 3 ≤ M) (h : t ≤ M) : etaA3 t M = 1 := by
  unfold etaA3
  have hM3 : (3:ℚ) ≤ (M:ℚ) := by exact_mod_cast hM
  have hden : (0:ℚ) < (M:ℚ) * ((M:ℚ) - 1) := by nlinarith
  refine max_eq_left ((div_le_one hden).mpr ?_)
  by_cases h3 : 3 ≤ t
  · have ht' : ((t:ℚ)) ≤ (M:ℚ) := by exact_mod_cast h
    have ht3 : (3:ℚ) ≤ (t:ℚ) := by exact_mod_cast h3
    nlinarith
  · have h3' : t < 3 := by omega
    interval_cases t
    · push_cast
      nlinarith
    · push_cast
      nlinarith
    · push_cast
      nlinarith

theorem xiBase_lt {M t1 t2 : ℕ} (hM : 3 ≤ M) (h1 : M < t1) (h12 : t1 < t2) :
    xiBase t1 M < xiBase t2 M := by
  unfold xiBase
  rw [if_neg (show ¬ t1 ≤ M by omega), if_neg (show ¬ t2 ≤ M by omega)]
  have hM3 : (3:ℚ) ≤ (M:ℚ) := by exact_mod_cast hM
  have hT1 : (M:ℚ) + 1 ≤ (t1:ℚ) := by exact_mod_cast h1
  have hT12 : (t1:ℚ) + 1 ≤ (t2:ℚ) := by exact_mod_cast h12
  have f2 : (0:ℚ) < (M:ℚ) - 1 := by linarith
  have f3 : (0:ℚ) < (M:ℚ) - 2 := by linarith
  have hD : (0:ℚ) < (M:ℚ) * ((M:ℚ) - 1) * ((M:ℚ) - 2) :=
    mul_pos (mul_pos (by linarith) f2) f3
  have hpos1 : (0:ℚ) ≤ (t1:ℚ) := by linarith
  have hpos2 : (0:ℚ) ≤ (t1:ℚ) - 1 := by linarith
  have hpos3 : (0:ℚ) ≤ (t1:ℚ) - 2 := by linarith
  have step1 : (M:ℚ) * ((M:ℚ) - 1) ≤ (t1:ℚ) * ((t1:ℚ) - 1) :=
    mul_le_mul (by linarith) (by linarith) (le_of_lt f2) hpos1
  have hnum1 : (M:ℚ) * ((M:ℚ) - 1) * ((M:ℚ) - 2)
      ≤ (t1:ℚ) * ((t1:ℚ) - 1) * ((t1:ℚ) - 2) :=
    mul_le_mul step1 (by linarith) (le_of_lt f3) (mul_nonneg hpos1 hpos2)
  have s1 : (t1:ℚ) * ((t1:ℚ) - 1) < (t2:ℚ) * ((t2:ℚ) - 1) :=
    mul_lt_mul'' (by linarith) (by linarith) hpos1 hpos2
  have hlt : (t1:ℚ) * ((t1:ℚ) - 1) * ((t1:ℚ) - 2)
      < (t2:ℚ) * ((t2:ℚ) - 1) * ((t2:ℚ) - 2) :=
    mul_lt_mul'' s1 (by linarith) (mul_nonneg hpos1 hpos2) hpos3
  have h1le : (1:ℚ) ≤ (t1:ℚ) * ((t1:ℚ) - 1) * ((t1:ℚ) - 2)
      / ((M:ℚ) * ((M:ℚ) - 1) * ((M:ℚ) - 2)) := (one_le_div hD).mpr hnum1
  have hdivlt : (t1:ℚ) * ((t1:ℚ) - 1) * ((t1:ℚ) - 2)
        / ((M:ℚ) * ((M:ℚ) - 1) * ((M:ℚ) - 2))
      < (t2:ℚ) * ((t2:ℚ) - 1) * ((t2:ℚ) - 2)
        / ((M:ℚ) * ((M:ℚ) - 1) * ((M:ℚ) - 2)) := by
    rw [div_lt_div_iff₀ hD hD]
    exact mul_lt_mul_of_pos_right hlt hD
  rw [max_eq_right h1le, max_eq_right (le_trans h1le (le_of_lt hdivlt))]
  exact hdivlt

theorem etaQ_lt {M t1 t2 : ℕ} (hM : 3 ≤ M) (h1 : M < t1) (h12 : t1 < t2) :
    max 1 ((((t1:ℚ)) - 1) * (((t1:ℚ)) - 2) / ((M:ℚ) * ((M:ℚ) - 1)))
      < max 1 ((((t2:ℚ)) - 1) * (((t2:ℚ)) - 2) / ((M:ℚ) * ((M:ℚ) - 1))) := by
  have hM3 : (3:ℚ) ≤ (M:ℚ) := by exact_mod_cast hM
  have hT1 : (M:ℚ) + 1 ≤ (t1:ℚ) := by exact_mod_cast h1
  have hT12 : (t1:ℚ) + 1 ≤ (t2:ℚ) := by exact_mod_cast h12
  have hD : (0:ℚ) < (M:ℚ) * ((M:ℚ) - 1) := by nlinarith
  have hpos2 : (0:ℚ) ≤ (t1:ℚ) - 1 := by linarith
  have hpos3 : (0:ℚ) ≤ (t1:ℚ) - 2 := by linarith
  have hnum1 : (M:ℚ) * ((M:ℚ) - 1) ≤ ((t1:ℚ) - 1) * ((t1:ℚ) - 2) :=
    mul_le_mul (by linarith) (by linarith) (by linarith) hpos2
  have hlt : ((t1:ℚ) - 1) * ((t1:ℚ) - 2) < ((t2:ℚ) - 1) * ((t2:ℚ) - 2) :=
    mul_lt_mul'' (by linarith) (by linarith) hpos2 hpos3
  have h1le : (1:ℚ) ≤ ((t1:ℚ) - 1) * ((t1:ℚ) - 2) / ((M:ℚ) * ((M:ℚ) - 1)) :=
    (one_le_div hD).mpr hnum1
  have hdivlt : ((t1:ℚ) - 1) * ((t1:ℚ) - 2) / ((M:ℚ) * ((M:ℚ) - 1))
      < ((t2:ℚ) - 1) * ((t2:ℚ) - 2) / ((M:ℚ) * ((M:ℚ) - 1)) := by
    rw [div_lt_div_iff₀ hD hD]
    exact mul_lt_mul_of_pos_right hlt hD
  rw [max_eq_right h1le, max_eq_right (le_trans h1le (le_of_lt hdivlt))]
  exact hdivlt

theorem etaImpr_lt {M t1 t2 : ℕ} (hM : 3 ≤ M) (h1 : M < t1) (h12 : t1 < t2) :
    etaImpr t1 M < etaImpr t2 M := by
  unfold etaImpr
  rw [if_neg (show ¬ t1 < 3 by omega), if_neg (show ¬ t2 < 3 by omega)]
  exact etaQ_lt hM h1 h12

theorem etaA3_lt {M t1 t2 : ℕ} (hM : 3 ≤ M) (h1 : M < t1) (h12 : t1 < t2) :
    etaA3 t1 M < etaA3 t2 M :=
  etaQ_lt hM h1 h12

/-! ## Claim theorems -/

/-- Claim C1: for every input stream (lines bundled with their random
draws) and at every point of a run (every prefix is itself a run), the
sample `S` of either HW3 variant holds at most `M` edges, holds no
duplicate edge (no repeated member in the list modelling the Python
set), and holds no self-loop edge (every member is a two-element vertex
set). -/
theorem reservoirBound (M : ℕ) (sd : Bool) (ls : List (Line × Bool × ℕ))
    (hM : 3 ≤ M) :
    (∀ st', runBase (initBase M sd) ls = .ok st' →
      st'.S.length ≤ M ∧ st'.S.Nodup ∧ ∀ e ∈ st'.S, e.card = 2) ∧
    (∀ st', runImpr (initImpr M sd) ls = .ok st' →
      st'.S.length ≤ M ∧ st'.S.Nodup ∧ ∀ e ∈ st'.S, e.card = 2) := by
  constructor
  · intro st' h
    have h0 : InvS (initBase M sd).S (initBase M sd).t (initBase M sd).M :=
      ⟨by simp [initBase], by simp [initBase], by simp [initBase], by simp [initBase]⟩
    obtain ⟨⟨-, hlM, hnd, hc2⟩, hMeq⟩ :=
      runBase_inv (show 3 ≤ (initBase M sd).M from hM) h0 h
    exact ⟨by simp [initBase] at hMeq; omega, hnd, hc2⟩
  · intro st' h
    have h0 : InvS (initImpr M sd).S (initImpr M sd).t (initImpr M sd).M :=
      ⟨by simp [initImpr], by simp [initImpr], by simp [initImpr], by simp [initImpr]⟩
    obtain ⟨⟨-, hlM, hnd, hc2⟩, hMeq⟩ :=
      runImpr_inv (show 3 ≤ (initImpr M sd).M from hM) h0 h
    exact ⟨by simp [initImpr] at hMeq; omega, hnd, hc2⟩

theorem reservoirBound_witness :
    (∀ st', runBase (initBase 3 true) [(⟨false, [some 1, some 2]⟩, true, 0)] = .ok st' →
      st'.S.length ≤ 3 ∧ st'.S.Nodup ∧ ∀ e ∈ st'.S, e.card = 2) ∧
    (∀ st', runImpr (initImpr 3 true) [(⟨false, [some 1, some 2]⟩, true, 0)] = .ok st' →
      st'.S.length ≤ 3 ∧ st'.S.Nodup ∧ ∀ e ∈ st'.S, e.card = 2) :=
  reservoirBound 3 true [(⟨false, [some 1, some 2]⟩, true, 0)] (by norm_num)

/-- Claim C2: in the BASE variant, the counter updates the source code
performs (evict: remove from `S` first, then subtract computed against
the shrunken `S`; admit: insert into `S` first, then add computed
against the grown `S`) produce exactly the state the specification's
ordering prescribes (evict: subtract against `S` before removal; admit:
add against `S` before insertion, then insert).  The equality holds for
the whole per-edge step, hence for all resulting counter values. -/
theorem baseUpdateOrderMatchesSpec (st : BaseState) (a b : Vertex) (c : Bool)
    (k : ℕ) (hab : a ≠ b) (hnd : st.S.Nodup)
    (hc2 : ∀ e ∈ st.S, e.card = 2) :
    procBase st a b c k = specProcBase st a b c k :=
  procBase_eq_spec st a b c k hab hnd hc2

theorem baseUpdateOrderMatchesSpec_witness :
    ((3:ℤ) ≠ 1 ∧ ([{1, 2}, {2, 3}] : List Edge).Nodup ∧
      (∀ e ∈ ([{1, 2}, {2, 3}] : List Edge), e.card = 2)) ∧
    procBase ⟨3, true, [{1, 2}, {2, 3}], 5, 7, fun _ => 0, ∅, 0⟩ 3 1 true 0
      = specProcBase ⟨3, true, [{1, 2}, {2, 3}], 5, 7, fun _ => 0, ∅, 0⟩ 3 1 true 0 :=
  ⟨⟨by decide, by decide, by decide⟩,
    baseUpdateOrderMatchesSpec ⟨3, true, [{1, 2}, {2, 3}], 5, 7, fun _ => 0, ∅, 0⟩
      3 1 true 0 (by decide) (by decide) (by decide)⟩

/-- Claim C3: in the IMPROVED variant (both implementations), for every
accepted edge — after deduplication and the increment of `t` — the
triangle contribution of the edge against the *current* sample, weighted
by `η(t)` at the incremented position, is added to `τ` and to the
per-vertex counters, and the resulting counter values do not depend on
the sampling decision (the right-hand sides mention neither the coin nor
the post-decision sample): counters advance for every accepted edge,
admitted into `S` or not. -/
theorem improvedCountsEveryEdge (st : ImprState) (sa : A3State)
    (a b : Vertex) (c c2 : Bool) (k k2 : ℕ) (hab : a ≠ b)
    (hdup : ¬(st.skipDup = true ∧ ({a, b} : Edge) ∈ st.seen)) :
    (stepImpr st ⟨false, [some a, some b]⟩ c k = .ok (procImpr st a b c k) ∧
      (procImpr st a b c k).tau
        = st.tau + etaImpr (st.t + 1) st.M * ((shared st.S a b).card : ℚ) ∧
      ∀ x, (procImpr st a b c k).tauV x
        = st.tauV x + etaImpr (st.t + 1) st.M *
            ((if x ∈ ({a, b} : Edge) then 1 else 0) * ((shared st.S a b).card : ℚ)
              + (if x ∈ shared st.S a b then 1 else 0))) ∧
    (∃ sa', stepA3 sa [some a, some b] c2 k2 = .ok sa' ∧
      sa'.tau = sa.tau + etaA3 (sa.t + 1) sa.M * ((shared sa.S a b).card : ℚ) ∧
      ∀ x, sa'.tauV x = sa.tauV x + etaA3 (sa.t + 1) sa.M *
          ((if x ∈ shared sa.S a b then 1 else 0)
            + ((shared sa.S a b).card : ℚ) * (if x ∈ ({a, b} : Edge) then 1 else 0))) := by
  obtain ⟨h1, h2⟩ := procImpr_counters st a b c k hab hdup
  exact ⟨⟨by simp [stepImpr, hab], h1, h2⟩, stepA3_counters sa a b c2 k2 hab⟩

theorem improvedCountsEveryEdge_witness :
    ((1:ℤ) ≠ 3 ∧
      ¬((⟨3, false, [{1, 2}, {2, 3}], 2, 0, fun _ => 0, ∅, 0⟩ : ImprState).skipDup = true ∧
        ({1, 3} : Edge) ∈ (⟨3, false, [{1, 2}, {2, 3}], 2, 0, fun _ => 0, ∅, 0⟩ : ImprState).seen)) ∧
    (procImpr ⟨3, false, [{1, 2}, {2, 3}], 2, 0, fun _ => 0, ∅, 0⟩ 1 3 true 0).tau
      = 0 + etaImpr 3 3 * ((shared [{1, 2}, {2, 3}] 1 3).card : ℚ) :=
  ⟨⟨by decide, by decide⟩,
    (improvedCountsEveryEdge ⟨3, false, [{1, 2}, {2, 3}], 2, 0, fun _ => 0, ∅, 0⟩
      ⟨3, [{1, 2}, {2, 3}], 2, 0, fun _ => 0⟩ 1 3 true true 0 0
      (by decide) (by decide)).1.2.1⟩

/-- Claim C4: the IMPROVED variant never decrements a counter.  In both
implementations, any step that completes leaves `τ` and every per-vertex
accumulator at least as large as before, and the reservoir decision
itself (`TriestImpr._sample_edge`) returns the counters untouched, with
an eviction doing nothing but removing the picked edge from `S`. -/
theorem improvedNeverDecrements (st : ImprState) (sa : A3State) (l : Line)
    (la : List (Option ℤ)) (c : Bool) (k : ℕ) :
    (∀ st', stepImpr st l c k = .ok st' →
      st.tau ≤ st'.tau ∧ ∀ x, st.tauV x ≤ st'.tauV x) ∧
    ((sampleImpr st c k).1.tau = st.tau ∧ (sampleImpr st c k).1.tauV = st.tauV ∧
      ((sampleImpr st c k).1.S = st.S ∨
        (sampleImpr st c k).1.S = st.S.erase (pickEdge st.S k))) ∧
    (∀ sa', stepA3 sa la c k = .ok sa' →
      sa.tau ≤ sa'.tau ∧ ∀ x, sa.tauV x ≤ sa'.tauV x) := by
  refine ⟨fun st' h => stepImpr_mono h, ?_, fun sa' h => stepA3_mono h⟩
  obtain ⟨h1, h2, h3, h4, h5, h6, h7, h8⟩ := sampleImpr_spec st c k
  exact ⟨h1, h2, h8⟩

/-- Claim C5: with `M ≥ 3` fixed, every scaling factor of the sources
(`TriestBase.xi`, `TriestImpr.xi`, `TriestImproved.eta`) equals `1.0`
for all `t ≤ M`, and each is strictly increasing in `t` on `t > M`. -/
theorem scalingFactorBoundary (M : ℕ) (hM : 3 ≤ M) :
    (∀ t, t ≤ M → xiBase t M = 1 ∧ etaImpr t M = 1 ∧ etaA3 t M = 1) ∧
    (∀ t1 t2, M < t1 → t1 < t2 →
      xiBase t1 M < xiBase t2 M ∧ etaImpr t1 M < etaImpr t2 M ∧
        etaA3 t1 M < etaA3 t2 M) :=
  ⟨fun t ht => ⟨xiBase_eq_one ht, etaImpr_eq_one hM ht, etaA3_eq_one hM ht⟩,
   fun t1 t2 h1 h12 =>
     ⟨xiBase_lt hM h1 h12, etaImpr_lt hM h1 h12, etaA3_lt hM h1 h12⟩⟩

theorem scalingFactorBoundary_witness :
    3 ≤ 3 ∧ (xiBase 2 3 = 1 ∧ etaImpr 2 3 = 1 ∧ etaA3 2 3 = 1) ∧
    (xiBase 4 3 < xiBase 5 3 ∧ etaImpr 4 3 < etaImpr 5 3 ∧ etaA3 4 3 < etaA3 5 3) := by
  obtain ⟨ha, hb⟩ := scalingFactorBoundary 3 (by norm_num)
  exact ⟨by norm_num, ha 2 (by norm_num), hb 4 5 (by norm_num) (by norm_num)⟩

/-- Claim C6 refutation: a line whose first two tokens contain a
non-integer token makes `int()` raise an uncaught `ValueError`, aborting
the whole run — the claim's "never aborts" fails; and a line with too
few tokens is skipped without being recorded in any count (the skipped
count stays `0`; it tracks only duplicate edges). -/
theorem malformedLineAborts :
    runBase (initBase 5 true) [(⟨false, [none, some 1]⟩, true, 0)] = .error () ∧
    (runBase (initBase 5 true) [(⟨false, [some 7]⟩, true, 0)]).map BaseState.skipped
      = .ok 0 :=
  ⟨rfl, rfl⟩

/-- Claim C6 (amended): a line with fewer than two tokens, or whose
first two tokens are the same integer, is skipped: the state — `t`, `S`,
`τ`, the per-vertex map, and also the skipped count, which records only
duplicates — is entirely unchanged and the run continues.  A line whose
first two tokens include a non-integer token aborts the run with an
uncaught exception. -/
theorem malformedLineBehavior (st : BaseState) (l : Line) (c : Bool) (k : ℕ)
    (hnc : l.isComment = false) :
    (l.toks.length < 2 → stepBase st l c k = .ok st) ∧
    (∀ a rest, l.toks = some a :: some a :: rest → stepBase st l c k = .ok st) ∧
    (∀ t0 t1 rest, l.toks = t0 :: t1 :: rest → (t0 = none ∨ t1 = none) →
      stepBase st l c k = .error ()) := by
  rcases l with ⟨lc, toks⟩
  cases lc
  · refine ⟨?_, ?_, ?_⟩
    · intro hlen
      rcases toks with - | ⟨t0, ts⟩
      · rfl
      · rcases ts with - | ⟨t1, ts'⟩
        · rcases t0 with - | a0 <;> rfl
        · simp at hlen
          exact absurd hlen (by omega)
    · intro a rest htoks
      simp only [] at htoks
      subst htoks
      simp [stepBase]
    · intro t0 t1 rest htoks hnone
      simp only [] at htoks
      subst htoks
      rcases hnone with rfl | rfl
      · rcases t1 with - | b <;> rfl
      · rcases t0 with - | a0 <;> rfl
  · simp at hnc

theorem malformedLineBehavior_witness :
    (Line.mk false [some 7]).isComment = false ∧
    stepBase (initBase 5 true) ⟨false, [some 7]⟩ true 0 = .ok (initBase 5 true) :=
  ⟨rfl, (malformedLineBehavior (initBase 5 true) ⟨false, [some 7]⟩ true 0 rfl).1
    (by norm_num)⟩

/-- Claim C7 (code evaluation): neither constructor validates `M`.
Constructing with `M = 2 < 3` succeeds in all three classes, returning a
fully initialized, usable estimator (a subsequent run processes an edge
normally) — the specification's mandated construction-time
`ConfigurationError` does not exist in the source. -/
theorem constructionAcceptsSmallM :
    (initBase 2 true).M = 2 ∧ (initBase 2 true).S = [] ∧ (initBase 2 true).t = 0 ∧
    (initImpr 2 true).M = 2 ∧ (initA3 2).M = 2 ∧
    (runBase (initBase 2 true) [(⟨false, [some 1, some 2]⟩, true, 0)]).map BaseState.t
      = .ok 1 :=
  ⟨rfl, rfl, rfl, rfl, rfl, rfl⟩

/-- Claim C8 refutation: in the Asiignment3 implementation a self-loop
line `"5 5"` is not filtered: it increments `t` to `1` and its edge
(the singleton frozenset `{5}`) is admitted into `S`. -/
theorem selfloopEntersSampleA3 :
    (runA3 (initA3 3) [([some 5, some 5], true, 0)]).map
      (fun sa => (sa.t, decide (({5} : Edge) ∈ sa.S))) = .ok (1, true) := rfl

/-- Claim C8 (amended): in the HW3 implementation, both variants skip a
line whose two tokens are the same integer before anything happens: `t`,
`S`, `τ` and the per-vertex map are all untouched (the returned state is
the input state).  The Asiignment3 implementation performs no such
filtering (see the refutation of the original claim). -/
theorem selfloopRejectedHW3 (st : BaseState) (si : ImprState) (c : Bool) (k : ℕ)
    (a : ℤ) (rest : List (Option ℤ)) :
    stepBase st ⟨false, some a :: some a :: rest⟩ c k = .ok st ∧
    stepImpr si ⟨false, some a :: some a :: rest⟩ c k = .ok si := by
  constructor
  · simp [stepBase]
  · simp [stepImpr]

/-- Claim C9: with `skip_duplicates` enabled, feeding the same line
twice consecutively leaves `t`, `S` and `τ` after the second occurrence
exactly as they were after the first (the second occurrence only bumps
the skipped count). -/
theorem duplicateIdempotent (st st1 : BaseState) (l : Line) (c1 c2 : Bool)
    (k1 k2 : ℕ) (hsd : st.skipDup = true)
    (h1 : stepBase st l c1 k1 = .ok st1) :
    ∃ st2, stepBase st1 l c2 k2 = .ok st2 ∧
      st2.t = st1.t ∧ st2.S = st1.S ∧ st2.tau = st1.tau := by
  rcases stepBase_classify l with h0 | ⟨a, b, hab, -, h0⟩ | h0
  · rw [h0 st c1 k1] at h1
    cases h1
    exact ⟨st, h0 st c2 k2, rfl, rfl, rfl⟩
  · rw [h0 st c1 k1] at h1
    cases h1
    have hsd1 : (procBase st a b c1 k1).skipDup = true := by
      rw [procBase_skipDup]; exact hsd
    have hseen1 : ({a, b} : Edge) ∈ (procBase st a b c1 k1).seen :=
      procBase_seen_mem st a b c1 k1 hsd
    refine ⟨{ procBase st a b c1 k1 with
        skipped := (procBase st a b c1 k1).skipped + 1 }, ?_, rfl, rfl, rfl⟩
    rw [h0 (procBase st a b c1 k1) c2 k2, procBase_dup c2 k2 ⟨hsd1, hseen1⟩]
  · rw [h0 st c1 k1] at h1
    cases h1

theorem duplicateIdempotent_witness :
    (initBase 3 true).skipDup = true ∧
    ∃ st2, stepBase (procBase (initBase 3 true) 1 2 true 0)
        ⟨false, [some 1, some 2]⟩ false 1 = .ok st2 ∧
      st2.t = (procBase (initBase 3 true) 1 2 true 0).t ∧
      st2.S = (procBase (initBase 3 true) 1 2 true 0).S ∧
      st2.tau = (procBase (initBase 3 true) 1 2 true 0).tau :=
  ⟨rfl, duplicateIdempotent (initBase 3 true) (procBase (initBase 3 true) 1 2 true 0)
    ⟨false, [some 1, some 2]⟩ true false 0 1 rfl rfl⟩

/-- Claim C10: for a genuine edge `{u, v}` (`u ≠ v`), the shared
neighborhood the counter update computes is insensitive to whether
`{u, v}` itself is in the sample: inserting it or erasing it leaves
`shared S u v` unchanged, because each endpoint is filtered out of its
own neighborhood.  Consequently computing the edge's own contribution
before or after its removal/insertion yields the same contribution. -/
theorem sharedNbhdInsensitive (S : List Edge) (u v : Vertex) (huv : u ≠ v)
    (hnd : S.Nodup) :
    shared (addEdge S {u, v}) u v = shared S u v ∧
    shared (S.erase {u, v}) u v = shared S u v ∧
    shared (addEdge S {u, v}) u v = shared (S.erase {u, v}) u v := by
  refine ⟨shared_addEdge_self, shared_erase_self hnd huv, ?_⟩
  rw [shared_addEdge_self, shared_erase_self hnd huv]

theorem sharedNbhdInsensitive_witness :
    ((1:ℤ) ≠ 3 ∧ ([{1, 2}, {2, 3}] : List Edge).Nodup) ∧
    shared (addEdge [{1, 2}, {2, 3}] {1, 3}) 1 3 = shared [{1, 2}, {2, 3}] 1 3 :=
  ⟨⟨by decide, by decide⟩,
    (sharedNbhdInsensitive [{1, 2}, {2, 3}] 1 3 (by decide) (by decide)).1⟩


